import Mathlib

/-!
Verification of the k-nearest-neighbour inverse-distance-weighting (IDW)
interpolation engine of `scripts/idw.py`.

The function under study is `inverse_distance_weighted_interpolation`:

```python
def inverse_distance_weighted_interpolation(position, nodes, values, k=6):
    if len(nodes) < k:
        k = len(nodes)
    kdtree = cKDTree(nodes)
    distances, indices = kdtree.query(position.to_tuple(), k=k)
    if isinstance(distances, float):  # k=1 returns scalars, not arrays
        distances = [distances]
        indices = [indices]
    numerator = 0.0
    denominator = 0.0
    for dist, idx in zip(distances, indices):
        if dist < 1e-6:
            return values[idx] if values[idx] >= 0.001 else 0
        weight = 1.0 / dist
        numerator += weight * values[idx]
        denominator += weight
    interpolated_value = numerator / denominator if denominator != 0 else 0
    return interpolated_value if interpolated_value >= 0.001 else 0
```

Modelling decisions.

* Reals are modelled by `ℚ` (exact arithmetic, executable in Lean).

* `scipy.spatial.cKDTree` is an external library, not code of this
  repository.  Its documented contract is: `query(point, k)` returns the
  `k` nearest input points as `(distance, index)` pairs sorted by
  non-decreasing Euclidean distance.  Euclidean distance on rational
  coordinates is irrational in general, so the metric enters the model as
  a parameter `d : P → P → ℚ` over an arbitrary position type `P`, and
  concrete evaluations instantiate `P := ℚ` with the one-dimensional
  Euclidean metric `fun a b => |a - b|` (the restriction of the 3-D
  Euclidean metric to points `(x, 0, 0)` on a coordinate axis).  scipy
  does not document how equal distances are ordered; following the
  index's contract we break ties by sample index (stable order), which
  also matches the observable behaviour of a linear leaf scan that keeps
  the earlier point at equal distance.

* `cKDTree(nodes)` raises `ValueError` when `nodes` is empty (the data
  array is not two-dimensional), and `cKDTree.query` raises `ValueError`
  when `k < 1`.  Both failures are modelled by `Except.error` values:
  the empty-sample-set failure as `IdwError.noSamples`, the bad-`k`
  failure as `IdwError.invalidArgument`.  Note the order: the tree is
  built before the query runs, so with zero samples the construction
  failure fires whatever `k` is.

* When `k = 1` scipy returns bare scalars and the python code wraps them
  back into one-element lists before the loop; in the model the query
  always returns a list (possibly of length 1), so the wrap is the
  identity and the loop below is the common path for every `k`.

* `values[idx]` is modelled by `List.getD values idx 0`; the engine is
  only ever called with `values` aligned index-by-index with `nodes`
  (the SampleSet invariant), and every theorem that needs alignment
  carries it as a hypothesis.
-/

namespace IDW

/-- Near-coincidence epsilon `1e-6` from the source. -/
def eps : ℚ := 1 / 1000000

/-- Small-value threshold `0.001` from the source. -/
def smallThreshold : ℚ := 1 / 1000

/-- The clamp the source applies on every return path:
`r if r >= 0.001 else 0` (a signed, not absolute-value, comparison). -/
def thresholdClamp (r : ℚ) : ℚ :=
  if smallThreshold ≤ r then r else 0

/-- Order on `(distance, sample index)` pairs: by distance, ties by index.
This is the order in which the spatial index returns neighbours. -/
def distLe (a b : ℚ × Nat) : Prop :=
  a.1 < b.1 ∨ (a.1 = b.1 ∧ a.2 ≤ b.2)

instance : DecidableRel distLe := fun a b =>
  inferInstanceAs (Decidable (a.1 < b.1 ∨ (a.1 = b.1 ∧ a.2 ≤ b.2)))

/-- Order on `(distance, value)` pairs: by distance, ties by value. -/
def pairLe (a b : ℚ × ℚ) : Prop :=
  a.1 < b.1 ∨ (a.1 = b.1 ∧ a.2 ≤ b.2)

instance : DecidableRel pairLe := fun a b =>
  inferInstanceAs (Decidable (a.1 < b.1 ∨ (a.1 = b.1 ∧ a.2 ≤ b.2)))

/-- All `(distance, index)` pairs of the samples `ps` against query point
`q`, indices counted from `i`.  This is the raw material of the k-d tree
query: the tree itself is only an acceleration structure. -/
def neighborPairs {P : Type} (d : P → P → ℚ) (q : P) : List P → Nat → List (ℚ × Nat)
  | [], _ => []
  | p :: ps, i => (d q p, i) :: neighborPairs d q ps (i + 1)

/-- Model of `cKDTree(nodes).query(q, k)` for `k ≥ 1` on a nonempty node
list: the `k` nearest `(distance, index)` pairs, sorted by non-decreasing
distance, ties broken by sample index. -/
def kdtreeQuery {P : Type} (d : P → P → ℚ) (nodes : List P) (q : P) (k : Nat) :
    List (ℚ × Nat) :=
  (List.insertionSort distLe (neighborPairs d q nodes 0)).take k

/-- Failure conditions of the interpolation call, both `ValueError`s in
python: `noSamples` models `cKDTree([])` rejecting an empty data array,
`invalidArgument` models `cKDTree.query` rejecting `k < 1`. -/
inductive IdwError : Type where
  | noSamples : IdwError
  | invalidArgument : IdwError
  deriving DecidableEq, Repr

/-- The clamp `if len(nodes) < k: k = len(nodes)` applied to `k`. -/
def effectiveK {P : Type} (nodes : List P) (k : Int) : Int :=
  if (nodes.length : Int) < k then (nodes.length : Int) else k

/-- The neighbour list the engine's loop actually consumes for a call
with raw neighbour count `k`. -/
def queryNeighbors {P : Type} (d : P → P → ℚ) (position : P) (nodes : List P)
    (k : Int) : List (ℚ × Nat) :=
  kdtreeQuery d nodes position (effectiveK nodes k).toNat

/-- The `for dist, idx in zip(distances, indices)` loop of the source,
with the running `numerator` and `denominator` as explicit accumulators,
including the final division and the small-value clamp on both return
paths. -/
def idwLoop (values : List ℚ) : List (ℚ × Nat) → ℚ → ℚ → ℚ
  | [], num, den =>
      let interpolated := if den ≠ 0 then num / den else 0
      if smallThreshold ≤ interpolated then interpolated else 0
  | (dist, idx) :: rest, num, den =>
      if dist < eps then
        (if smallThreshold ≤ values.getD idx 0 then values.getD idx 0 else 0)
      else
        idwLoop values rest (num + 1 / dist * values.getD idx 0) (den + 1 / dist)

/-- Shallow embedding of `inverse_distance_weighted_interpolation`. -/
def inverse_distance_weighted_interpolation {P : Type} (d : P → P → ℚ)
    (position : P) (nodes : List P) (values : List ℚ) (k : Int := 6) :
    Except IdwError ℚ :=
  if nodes.length = 0 then Except.error IdwError.noSamples
  else if effectiveK nodes k < 1 then Except.error IdwError.invalidArgument
  else Except.ok (idwLoop values (queryNeighbors d position nodes k) 0 0)

/-- The loop of the source with the small-value clamp stripped from both
return paths: the candidate result (short-circuit hit value, or weighted
average, or the `denominator == 0` fallback `0`) before thresholding. -/
def idwCandidateLoop (values : List ℚ) : List (ℚ × Nat) → ℚ → ℚ → ℚ
  | [], num, den => if den ≠ 0 then num / den else 0
  | (dist, idx) :: rest, num, den =>
      if dist < eps then values.getD idx 0
      else idwCandidateLoop values rest (num + 1 / dist * values.getD idx 0) (den + 1 / dist)

/-- The candidate (pre-clamp) result of an interpolation call. -/
def idwCandidate {P : Type} (d : P → P → ℚ) (position : P) (nodes : List P)
    (values : List ℚ) (k : Int := 6) : Except IdwError ℚ :=
  if nodes.length = 0 then Except.error IdwError.noSamples
  else if effectiveK nodes k < 1 then Except.error IdwError.invalidArgument
  else Except.ok (idwCandidateLoop values (queryNeighbors d position nodes k) 0 0)

/-- Sum of the inverse-distance weights `w_i = 1 / d_i` the loop
accumulates into `denominator` over a neighbour list. -/
def sumWeights (nb : List (ℚ × Nat)) : ℚ :=
  (nb.map (fun x => 1 / x.1)).sum

/-- Sum of the weighted values `w_i * values[i]` the loop accumulates
into `numerator` over a neighbour list. -/
def sumWeighted (values : List ℚ) (nb : List (ℚ × Nat)) : ℚ :=
  (nb.map (fun x => 1 / x.1 * values.getD x.2 0)).sum

/-- The loop of the source expressed on `(distance, value)` pairs: the
interpolation result only reads a neighbour's index through
`values[idx]`, which this version receives pre-applied. -/
def idwLoopDV : List (ℚ × ℚ) → ℚ → ℚ → ℚ
  | [], num, den =>
      let interpolated := if den ≠ 0 then num / den else 0
      if smallThreshold ≤ interpolated then interpolated else 0
  | (dist, v) :: rest, num, den =>
      if dist < eps then (if smallThreshold ≤ v then v else 0)
      else idwLoopDV rest (num + 1 / dist * v) (den + 1 / dist)

instance {ε α : Type} [DecidableEq ε] [DecidableEq α] : DecidableEq (Except ε α) :=
  fun a b =>
  match a, b with
  | Except.ok x, Except.ok y =>
      if h : x = y then isTrue (by rw [h])
      else isFalse (fun hc => h (Except.ok.inj hc))
  | Except.error x, Except.error y =>
      if h : x = y then isTrue (by rw [h])
      else isFalse (fun hc => h (Except.error.inj hc))
  | Except.ok _, Except.error _ => isFalse (fun hc => Except.noConfusion hc)
  | Except.error _, Except.ok _ => isFalse (fun hc => Except.noConfusion hc)

/-- One-dimensional Euclidean metric on `ℚ`, used to evaluate the model
on concrete inputs: it is the 3-D Euclidean distance restricted to
collinear points `(x, 0, 0)`. -/
def dAbs (a b : ℚ) : ℚ := if b ≤ a then a - b else b - a

/-! ### Basic facts about the order relations and the model's pieces -/

theorem eps_pos : 0 < eps := by norm_num [eps]

theorem dAbs_self (p : ℚ) : dAbs p p = 0 := by simp [dAbs]

theorem dAbs_pos (p q : ℚ) (h : p ≠ q) : 0 < dAbs p q := by
  rcases lt_or_le p q with hlt | hle
  · rw [dAbs, if_neg (by linarith)]
    linarith
  · rcases lt_or_eq_of_le hle with hlt | heq
    · rw [dAbs, if_pos (le_of_lt hlt)]
      linarith
    · exact absurd heq.symm h

instance : IsTotal (ℚ × Nat) distLe :=
  ⟨fun a b => by
    rcases lt_trichotomy a.1 b.1 with h | h | h
    · exact Or.inl (Or.inl h)
    · rcases Nat.le_total a.2 b.2 with h2 | h2
      · exact Or.inl (Or.inr ⟨h, h2⟩)
      · exact Or.inr (Or.inr ⟨h.symm, h2⟩)
    · exact Or.inr (Or.inl h)⟩

instance : IsTrans (ℚ × Nat) distLe :=
  ⟨fun a b c hab hbc => by
    rcases hab with h1 | ⟨h1, h1n⟩ <;> rcases hbc with h2 | ⟨h2, h2n⟩
    · exact Or.inl (h1.trans h2)
    · exact Or.inl (h2 ▸ h1)
    · exact Or.inl (h1 ▸ h2)
    · exact Or.inr ⟨h1.trans h2, h1n.trans h2n⟩⟩

instance : IsTotal (ℚ × ℚ) pairLe :=
  ⟨fun a b => by
    rcases lt_trichotomy a.1 b.1 with h | h | h
    · exact Or.inl (Or.inl h)
    · rcases le_total a.2 b.2 with h2 | h2
      · exact Or.inl (Or.inr ⟨h, h2⟩)
      · exact Or.inr (Or.inr ⟨h.symm, h2⟩)
    · exact Or.inr (Or.inl h)⟩

instance : IsTrans (ℚ × ℚ) pairLe :=
  ⟨fun a b c hab hbc => by
    rcases hab with h1 | ⟨h1, h1n⟩ <;> rcases hbc with h2 | ⟨h2, h2n⟩
    · exact Or.inl (h1.trans h2)
    · exact Or.inl (h2 ▸ h1)
    · exact Or.inl (h1 ▸ h2)
    · exact Or.inr ⟨h1.trans h2, h1n.trans h2n⟩⟩

instance : IsAntisymm (ℚ × ℚ) pairLe :=
  ⟨fun a b hab hba => by
    rcases hab with h1 | ⟨h1, h1v⟩ <;> rcases hba with h2 | ⟨h2, h2v⟩
    · exact absurd (h1.trans h2) (lt_irrefl _)
    · exact absurd h1 (h2 ▸ lt_irrefl _)
    · exact absurd h2 (h1 ▸ lt_irrefl _)
    · exact Prod.ext h1 (le_antisymm h1v h2v)⟩

theorem neighborPairs_length {P : Type} (d : P → P → ℚ) (q : P) :
    ∀ (ps : List P) (a : Nat), (neighborPairs d q ps a).length = ps.length
  | [], _ => rfl
  | _ :: ps, a => by
    simp [neighborPairs, neighborPairs_length d q ps (a + 1)]

theorem neighborPairs_map_fst {P : Type} (d : P → P → ℚ) (q : P) :
    ∀ (ps : List P) (a : Nat),
      (neighborPairs d q ps a).map Prod.fst = ps.map (d q)
  | [], _ => rfl
  | _ :: ps, a => by
    simp [neighborPairs, neighborPairs_map_fst d q ps (a + 1)]

theorem mem_neighborPairs {P : Type} {d : P → P → ℚ} {q : P} {x : ℚ × Nat} :
    ∀ {ps : List P} {a : Nat}, x ∈ neighborPairs d q ps a →
      ∃ j, ∃ hj : j < ps.length, x = (d q (ps.get ⟨j, hj⟩), a + j)
  | [], _, hx => absurd hx (List.not_mem_nil x)
  | p :: ps, a, hx => by
    rcases List.mem_cons.mp hx with hx | hx
    · exact ⟨0, Nat.succ_pos _, by simpa using hx⟩
    · obtain ⟨j, hj, hxe⟩ := mem_neighborPairs hx
      exact ⟨j + 1, Nat.succ_lt_succ hj, by simpa [Nat.add_assoc, Nat.add_comm 1 j] using hxe⟩

theorem neighborPairs_mem {P : Type} (d : P → P → ℚ) (q : P) :
    ∀ (ps : List P) (a : Nat) (j : Nat) (hj : j < ps.length),
      (d q (ps.get ⟨j, hj⟩), a + j) ∈ neighborPairs d q ps a
  | [], _, j, hj => absurd hj (Nat.not_lt_zero j)
  | p :: ps, a, 0, _ => by simp [neighborPairs]
  | p :: ps, a, j + 1, hj => by
    have := neighborPairs_mem d q ps (a + 1) j (Nat.lt_of_succ_lt_succ hj)
    simp only [neighborPairs, List.mem_cons]
    right
    simpa [Nat.add_assoc, Nat.add_comm 1 j] using this

/-! ### The loop: clamp factorisation, short-circuit, weighted-average shape -/

theorem idwLoop_eq_clamp (values : List ℚ) :
    ∀ (nb : List (ℚ × Nat)) (num den : ℚ),
      idwLoop values nb num den = thresholdClamp (idwCandidateLoop values nb num den)
  | [], num, den => by
    simp only [idwLoop, idwCandidateLoop, thresholdClamp]
  | (dist, idx) :: rest, num, den => by
    simp only [idwLoop, idwCandidateLoop, thresholdClamp]
    by_cases hd : dist < eps
    · simp [hd]
    · simp only [if_neg hd]
      have := idwLoop_eq_clamp values rest (num + 1 / dist * values.getD idx 0)
        (den + 1 / dist)
      simpa [thresholdClamp] using this

theorem idwLoop_eq_loopDV (values : List ℚ) :
    ∀ (nb : List (ℚ × Nat)) (num den : ℚ),
      idwLoop values nb num den =
        idwLoopDV (nb.map (fun x => (x.1, values.getD x.2 0))) num den
  | [], _, _ => rfl
  | (dist, idx) :: rest, num, den => by
    simp only [idwLoop, idwLoopDV, List.map_cons]
    by_cases hd : dist < eps
    · simp [hd]
    · simp only [if_neg hd]
      exact idwLoop_eq_loopDV values rest _ _

theorem idwLoop_shortcircuit (values : List ℚ) (dd : ℚ) (i : Nat)
    (hdd : dd < eps) :
    ∀ (pre : List (ℚ × Nat)), (∀ x ∈ pre, ¬ x.1 < eps) →
      ∀ (post : List (ℚ × Nat)) (num den : ℚ),
        idwLoop values (pre ++ (dd, i) :: post) num den =
          thresholdClamp (values.getD i 0)
  | [], _, post, num, den => by
    simp [idwLoop, hdd, thresholdClamp]
  | (dist, idx) :: pre, hpre, post, num, den => by
    have hd : ¬ dist < eps := hpre (dist, idx) (List.mem_cons_self _ _)
    simp only [List.cons_append, idwLoop, if_neg hd]
    exact idwLoop_shortcircuit values dd i hdd pre
      (fun x hx => hpre x (List.mem_cons_of_mem _ hx)) post _ _

theorem idwCandidateLoop_weighted (values : List ℚ) :
    ∀ (nb : List (ℚ × Nat)), (∀ x ∈ nb, ¬ x.1 < eps) →
      ∀ (num den : ℚ),
        idwCandidateLoop values nb num den =
          if den + sumWeights nb = 0 then 0
          else (num + sumWeighted values nb) / (den + sumWeights nb)
  | [], _, num, den => by
    simp only [idwCandidateLoop, sumWeights, sumWeighted, List.map_nil, List.sum_nil,
      add_zero]
    by_cases h : den = 0 <;> simp [h]
  | (dist, idx) :: rest, hfar, num, den => by
    have hd : ¬ dist < eps := hfar (dist, idx) (List.mem_cons_self _ _)
    simp only [idwCandidateLoop, if_neg hd]
    rw [idwCandidateLoop_weighted values rest
      (fun x hx => hfar x (List.mem_cons_of_mem _ hx))]
    simp only [sumWeights, sumWeighted, List.map_cons, List.sum_cons, add_assoc]

theorem sumWeights_pos (nb : List (ℚ × Nat)) (hne : nb ≠ [])
    (hfar : ∀ x ∈ nb, ¬ x.1 < eps) : 0 < sumWeights nb := by
  apply List.sum_pos
  · intro w hw
    obtain ⟨x, hx, rfl⟩ := List.mem_map.mp hw
    have hx1 : eps ≤ x.1 := le_of_not_lt (hfar x hx)
    have : 0 < x.1 := lt_of_lt_of_le eps_pos hx1
    positivity
  · simpa using hne

/-! ### The engine's control flow -/

theorem queryNeighbors_length {P : Type} (d : P → P → ℚ) (position : P)
    (nodes : List P) (k : Int) :
    (queryNeighbors d position nodes k).length =
      min (effectiveK nodes k).toNat nodes.length := by
  simp [queryNeighbors, kdtreeQuery, List.length_take,
    List.length_insertionSort, neighborPairs_length]

theorem queryNeighbors_sorted {P : Type} (d : P → P → ℚ) (position : P)
    (nodes : List P) (k : Int) :
    List.Sorted distLe (queryNeighbors d position nodes k) :=
  (List.sorted_insertionSort distLe _).sublist (List.take_sublist _ _)

theorem effectiveK_pos {P : Type} {nodes : List P} {k : Int}
    (hn : nodes ≠ []) (hk : 1 ≤ k) : 1 ≤ effectiveK nodes k := by
  have hlen : 1 ≤ (nodes.length : Int) := by
    have := List.length_pos.mpr hn
    exact_mod_cast this
  unfold effectiveK
  split <;> omega

theorem idw_ok {P : Type} (d : P → P → ℚ) (position : P)
    (nodes : List P) (values : List ℚ) (k : Int)
    (hn : nodes ≠ []) (hk : 1 ≤ k) :
    inverse_distance_weighted_interpolation d position nodes values k =
      Except.ok (idwLoop values (queryNeighbors d position nodes k) 0 0) := by
  have h0 : nodes.length ≠ 0 := fun hc => hn (List.length_eq_zero.mp hc)
  have h1 : ¬ effectiveK nodes k < 1 := not_lt.mpr (effectiveK_pos hn hk)
  simp [inverse_distance_weighted_interpolation, h0, h1]

theorem idwCandidate_ok {P : Type} (d : P → P → ℚ) (position : P)
    (nodes : List P) (values : List ℚ) (k : Int)
    (hn : nodes ≠ []) (hk : 1 ≤ k) :
    idwCandidate d position nodes values k =
      Except.ok (idwCandidateLoop values (queryNeighbors d position nodes k) 0 0) := by
  have h0 : nodes.length ≠ 0 := fun hc => hn (List.length_eq_zero.mp hc)
  have h1 : ¬ effectiveK nodes k < 1 := not_lt.mpr (effectiveK_pos hn hk)
  simp [idwCandidate, h0, h1]

theorem queryNeighbors_ne_nil {P : Type} (d : P → P → ℚ) (position : P)
    (nodes : List P) (k : Int) (hn : nodes ≠ []) (hk : 1 ≤ k) :
    queryNeighbors d position nodes k ≠ [] := by
  have hlen := queryNeighbors_length d position nodes k
  intro hcon
  rw [hcon] at hlen
  have h1 : 1 ≤ effectiveK nodes k := effectiveK_pos hn hk
  have h2 : 0 < nodes.length := List.length_pos.mpr hn
  simp only [List.length_nil] at hlen
  omega

/-! ### Claim C1: the small-value threshold clamp -/

/-- Claim C1 (amended): for every interpolation call that produces a
candidate result `r` (short-circuit path or weighted-average path), the
value returned is `r` itself when `r ≥ 0.001` and exactly `0` otherwise.
The comparison is signed, not on `|r|`: negative candidates are clamped
to `0`. -/
theorem claim_C1_threshold_amended {P : Type} (d : P → P → ℚ) (position : P)
    (nodes : List P) (values : List ℚ) (k : Int) (r : ℚ)
    (h : idwCandidate d position nodes values k = Except.ok r) :
    inverse_distance_weighted_interpolation d position nodes values k =
      Except.ok (if smallThreshold ≤ r then r else 0) := by
  unfold idwCandidate at h
  unfold inverse_distance_weighted_interpolation
  by_cases h0 : nodes.length = 0
  · simp [h0] at h
  · by_cases h1 : effectiveK nodes k < 1
    · simp [h0, h1] at h
    · rw [if_neg h0, if_neg h1] at h ⊢
      have hr := Except.ok.inj h
      rw [idwLoop_eq_clamp, hr]
      simp only [thresholdClamp]

/-- Claim C1 fails as stated: at one sample `0 ↦ -5`, query point `1`,
`k = 1`, the candidate result is `-5`, whose magnitude is at least
`0.001`, yet the call returns `0`, not the candidate unchanged. -/
theorem claim_C1_counterexample :
    idwCandidate dAbs 1 [0] [-5] 1 = Except.ok (-5) ∧
    smallThreshold ≤ |(-5 : ℚ)| ∧
    inverse_distance_weighted_interpolation dAbs 1 [0] [-5] 1 = Except.ok 0 ∧
    (0 : ℚ) ≠ -5 := by
  refine ⟨?_, by norm_num [smallThreshold], ?_, by norm_num⟩ <;>
    norm_num [idwCandidate, inverse_distance_weighted_interpolation, queryNeighbors,
      kdtreeQuery, neighborPairs, effectiveK, idwCandidateLoop, idwLoop,
      List.insertionSort, List.orderedInsert, distLe, eps, smallThreshold, dAbs]

/-- Witness for the amended claim C1 at a concrete sub-threshold input:
two samples `0 ↦ 0.0005`, `10 ↦ 0.0005`, query point `5`, `k = 2`; the
candidate weighted average is `0.0005` and the call returns `0`. -/
theorem claim_C1_witness :
    inverse_distance_weighted_interpolation dAbs 5 [0, 10]
        [1 / 2000, 1 / 2000] 2 =
      Except.ok (if smallThreshold ≤ (1 / 2000 : ℚ) then (1 / 2000 : ℚ) else 0) :=
  claim_C1_threshold_amended dAbs 5 [0, 10] [1 / 2000, 1 / 2000] 2 (1 / 2000) (by
    norm_num [idwCandidate, queryNeighbors, kdtreeQuery, neighborPairs, effectiveK,
      idwCandidateLoop, List.insertionSort, List.orderedInsert, distLe, eps, dAbs])

/-! ### Claim C3: empty sample set fails -/

/-- Claim C3: with zero samples the interpolation call fails with the
NoSamples condition (in the source, the `ValueError` that `cKDTree`
raises on an empty data array) rather than returning a value, for every
query point and every `k`. -/
theorem claim_C3_empty_noSamples {P : Type} (d : P → P → ℚ) (position : P)
    (values : List ℚ) (k : Int) :
    inverse_distance_weighted_interpolation d position [] values k =
      Except.error IdwError.noSamples := by
  simp [inverse_distance_weighted_interpolation]

/-! ### Claim C4: k larger than the sample count is clamped -/

/-- Claim C4: for a nonempty sample set of size `n` and any requested
`K > n`, interpolating with `k = K` returns the same value as with
`k = n`, and the call does not signal an error. -/
theorem claim_C4_kClamp {P : Type} (d : P → P → ℚ) (position : P)
    (nodes : List P) (values : List ℚ) (K : Int)
    (hn : nodes ≠ []) (hK : (nodes.length : Int) < K) :
    inverse_distance_weighted_interpolation d position nodes values K =
      inverse_distance_weighted_interpolation d position nodes values
        (nodes.length : Int) ∧
    ∃ v, inverse_distance_weighted_interpolation d position nodes values K =
      Except.ok v := by
  have hn1 : 1 ≤ (nodes.length : Int) := by
    exact_mod_cast List.length_pos.mpr hn
  have heff : effectiveK nodes K = effectiveK nodes (nodes.length : Int) := by
    unfold effectiveK
    rw [if_pos hK, if_neg (lt_irrefl _)]
  have hKk : 1 ≤ K := le_trans hn1 (le_of_lt hK)
  constructor
  · rw [idw_ok d position nodes values K hn hKk,
      idw_ok d position nodes values (nodes.length : Int) hn hn1]
    unfold queryNeighbors
    rw [heff]
  · exact ⟨_, idw_ok d position nodes values K hn hKk⟩

/-- Witness for claim C4: two samples, `K = 5 > 2 = n`. -/
theorem claim_C4_witness :
    inverse_distance_weighted_interpolation dAbs 5 [0, 10] [2, 4] 5 =
      inverse_distance_weighted_interpolation dAbs 5 [0, 10] [2, 4]
        (([0, 10] : List ℚ).length : Int) ∧
    ∃ v, inverse_distance_weighted_interpolation dAbs 5 [0, 10] [2, 4] 5 =
      Except.ok v :=
  claim_C4_kClamp dAbs 5 [0, 10] [2, 4] 5 (by simp) (by norm_num)

/-! ### Claim C5: k below one -/

/-- Claim C5 fails as stated: with an empty sample set and `k = 0`, the
call fails, but with the NoSamples condition of the index construction
(in the source, `cKDTree([])` raises before `query` ever checks `k`),
not with InvalidArgument. -/
theorem claim_C5_counterexample :
    inverse_distance_weighted_interpolation dAbs 0 ([] : List ℚ) [] 0 =
      Except.error IdwError.noSamples ∧
    (Except.error IdwError.noSamples : Except IdwError ℚ) ≠
      Except.error IdwError.invalidArgument := by
  constructor
  · simp [inverse_distance_weighted_interpolation]
  · intro hc
    exact IdwError.noConfusion (Except.error.inj hc)

/-- Claim C5 (amended): for every query with `k < 1` against a nonempty
sample set, the call signals the InvalidArgument condition; with an
empty sample set the NoSamples failure fires first (the call still
fails, but with the other condition). -/
theorem claim_C5_invalidArgument_amended {P : Type} (d : P → P → ℚ)
    (position : P) (nodes : List P) (values : List ℚ) (k : Int)
    (hn : nodes ≠ []) (hk : k < 1) :
    inverse_distance_weighted_interpolation d position nodes values k =
      Except.error IdwError.invalidArgument := by
  have h0 : nodes.length ≠ 0 := fun hc => hn (List.length_eq_zero.mp hc)
  have hn1 : 1 ≤ (nodes.length : Int) := by
    exact_mod_cast List.length_pos.mpr hn
  have heff : effectiveK nodes k = k := by
    unfold effectiveK
    rw [if_neg (by omega)]
  unfold inverse_distance_weighted_interpolation
  rw [if_neg h0, heff, if_pos hk]

/-- Witness for the amended claim C5: one sample, `k = 0`. -/
theorem claim_C5_witness :
    inverse_distance_weighted_interpolation dAbs 7 [3] [9] 0 =
      Except.error IdwError.invalidArgument :=
  claim_C5_invalidArgument_amended dAbs 7 [3] [9] 0 (by simp) (by norm_num)

/-! ### Claim C2: querying at a sample position -/

/-- At a query point coinciding with sample `i`, when no other sample
shares that position, the sorted neighbour list starts with `(0, i)`. -/
theorem queryNeighbors_head_self {P : Type} (d : P → P → ℚ)
    (hd0 : ∀ p, d p p = 0) (hdpos : ∀ p q : P, p ≠ q → 0 < d p q)
    (nodes : List P) (k : Int) (i : Nat) (hi : i < nodes.length)
    (huniq : ∀ j, ∀ hj : j < nodes.length, j ≠ i →
      nodes.get ⟨j, hj⟩ ≠ nodes.get ⟨i, hi⟩)
    (hk : 1 ≤ k) :
    ∃ rest, queryNeighbors d (nodes.get ⟨i, hi⟩) nodes k = (0, i) :: rest := by
  have hn : nodes ≠ [] := by
    intro hc
    rw [hc] at hi
    exact absurd hi (by simp)
  have hmem0 : ((0 : ℚ), i) ∈ neighborPairs d (nodes.get ⟨i, hi⟩) nodes 0 := by
    have := neighborPairs_mem d (nodes.get ⟨i, hi⟩) nodes 0 i hi
    rwa [hd0, Nat.zero_add] at this
  have hS := queryNeighbors_sorted d (nodes.get ⟨i, hi⟩) nodes k
  have hSperm := List.perm_insertionSort distLe
    (neighborPairs d (nodes.get ⟨i, hi⟩) nodes 0)
  -- the sorted list is nonempty, so it has a head
  have hne := queryNeighbors_ne_nil d (nodes.get ⟨i, hi⟩) nodes k hn hk
  -- characterise the head of the full sorted list
  set L := neighborPairs d (nodes.get ⟨i, hi⟩) nodes 0 with hL
  set S := List.insertionSort distLe L with hSdef
  have hSlen : S.length = nodes.length := by
    rw [hSdef, List.length_insertionSort, hL, neighborPairs_length]
  have hSne : S ≠ [] := by
    intro hc
    rw [hc] at hSlen
    exact hn (List.length_eq_zero.mp hSlen.symm)
  obtain ⟨h, t, hSeq⟩ := List.exists_cons_of_ne_nil hSne
  have hsorted : List.Sorted distLe S := List.sorted_insertionSort distLe L
  have hmem0S : ((0 : ℚ), i) ∈ S := by
    rw [hSdef, List.mem_insertionSort]
    exact hmem0
  have hhL : h ∈ L := by
    have : h ∈ S := by rw [hSeq]; exact List.mem_cons_self _ _
    rw [hSdef, List.mem_insertionSort] at this
    exact this
  obtain ⟨j, hj, hhe⟩ := mem_neighborPairs hhL
  rw [Nat.zero_add] at hhe
  have hhead : h = ((0 : ℚ), i) := by
    by_cases hji : j = i
    · subst hji
      rw [hhe, hd0]
    · have hne2 : nodes.get ⟨i, hi⟩ ≠ nodes.get ⟨j, hj⟩ :=
        fun hc => huniq j hj hji hc.symm
      have hpos : 0 < d (nodes.get ⟨i, hi⟩) (nodes.get ⟨j, hj⟩) :=
        hdpos _ _ hne2
      rcases List.mem_cons.mp (hSeq ▸ hmem0S) with h0 | h0
      · exact h0.symm
      · have hrel : distLe h ((0 : ℚ), i) := by
          rw [hSeq] at hsorted
          exact List.rel_of_sorted_cons hsorted _ h0
        rcases hrel with hlt | ⟨heq, _⟩
        · rw [hhe] at hlt
          exact absurd hlt (by simpa using le_of_lt hpos)
        · rw [hhe] at heq
          exact absurd heq (by simpa using ne_of_gt hpos)
  have hm1 : 1 ≤ (effectiveK nodes k).toNat := by
    have := effectiveK_pos hn hk
    omega
  obtain ⟨m, hm⟩ := Nat.exists_eq_add_of_le hm1
  refine ⟨t.take m, ?_⟩
  have : queryNeighbors d (nodes.get ⟨i, hi⟩) nodes k =
      S.take (effectiveK nodes k).toNat := rfl
  rw [this, hSeq, hhead, hm, Nat.add_comm 1 m]
  rfl

/-- Claim C2 (amended): querying at the position of sample `i` (no other
sample sharing that position) with any `k ≥ 1` returns `v_i` if
`v_i ≥ 0.001` and `0` otherwise.  As for C1 the comparison the code
applies is signed: a negative `v_i` of large magnitude yields `0`. -/
theorem claim_C2_exactMatch_amended {P : Type} (d : P → P → ℚ)
    (hd0 : ∀ p, d p p = 0) (hdpos : ∀ p q : P, p ≠ q → 0 < d p q)
    (nodes : List P) (values : List ℚ) (k : Int) (i : Nat)
    (hi : i < nodes.length)
    (huniq : ∀ j, ∀ hj : j < nodes.length, j ≠ i →
      nodes.get ⟨j, hj⟩ ≠ nodes.get ⟨i, hi⟩)
    (hk : 1 ≤ k) :
    inverse_distance_weighted_interpolation d (nodes.get ⟨i, hi⟩) nodes values k =
      Except.ok (if smallThreshold ≤ values.getD i 0 then values.getD i 0 else 0) := by
  have hn : nodes ≠ [] := by
    intro hc
    rw [hc] at hi
    exact absurd hi (by simp)
  obtain ⟨rest, hQ⟩ := queryNeighbors_head_self d hd0 hdpos nodes k i hi huniq hk
  rw [idw_ok d _ nodes values k hn hk, hQ]
  have hloop := idwLoop_shortcircuit values 0 i eps_pos []
    (by intro x hx; exact absurd hx (List.not_mem_nil x)) rest 0 0
  rw [List.nil_append] at hloop
  rw [hloop]
  simp only [thresholdClamp]

/-- Claim C2 fails as stated: the single sample `0 ↦ -2` queried at its
own position `0` has `|v_0| = 2 ≥ 0.001`, but the call returns `0`, not
`v_0 = -2`. -/
theorem claim_C2_counterexample :
    smallThreshold ≤ |(-2 : ℚ)| ∧
    inverse_distance_weighted_interpolation dAbs 0 [0] [-2] 1 = Except.ok 0 ∧
    (0 : ℚ) ≠ -2 := by
  refine ⟨by norm_num [smallThreshold], ?_, by norm_num⟩
  norm_num [inverse_distance_weighted_interpolation, queryNeighbors, kdtreeQuery,
    neighborPairs, effectiveK, idwLoop, List.insertionSort, List.orderedInsert,
    distLe, eps, smallThreshold, dAbs]

/-- Witness for the amended claim C2: samples `0 ↦ 5`, `10 ↦ 7`, query
at sample `0`'s position with `k = 3`; the call returns `5`. -/
theorem claim_C2_witness :
    inverse_distance_weighted_interpolation dAbs 0 [0, 10] [5, 7] 3 =
      Except.ok 5 := by
  have h := claim_C2_exactMatch_amended dAbs dAbs_self dAbs_pos [0, 10] [5, 7] 3 0
    (by norm_num)
    (by
      intro j hj hne
      match j, hj with
      | 0, _ => exact absurd rfl hne
      | 1, _ => simp only [List.get]; norm_num)
    (by norm_num)
  norm_num [smallThreshold] at h
  exact h

/-! ### Claim C7: the near-coincidence short-circuit -/

/-- Claim C7: neighbours are scanned in ascending distance order (the
query result is sorted under `distLe`), and once the scan reaches a
first neighbour at distance below `ε = 1e-6` — every earlier neighbour
being at distance at least `ε` — that neighbour's value is returned
through the threshold clamp immediately, whatever neighbours follow:
coincident points are never blended. -/
theorem claim_C7_shortCircuit {P : Type} (d : P → P → ℚ) (position : P)
    (nodes : List P) (values : List ℚ) (k : Int)
    (pre post : List (ℚ × Nat)) (dd : ℚ) (i : Nat)
    (hn : nodes ≠ []) (hk : 1 ≤ k)
    (hsplit : queryNeighbors d position nodes k = pre ++ (dd, i) :: post)
    (hpre : ∀ x ∈ pre, ¬ x.1 < eps) (hdd : dd < eps) :
    List.Sorted distLe (queryNeighbors d position nodes k) ∧
    inverse_distance_weighted_interpolation d position nodes values k =
      Except.ok (if smallThreshold ≤ values.getD i 0 then values.getD i 0 else 0) := by
  refine ⟨queryNeighbors_sorted d position nodes k, ?_⟩
  rw [idw_ok d position nodes values k hn hk, hsplit,
    idwLoop_shortcircuit values dd i hdd pre hpre post 0 0]
  simp only [thresholdClamp]

/-- Witness for claim C7: samples `0 ↦ 7`, `5 ↦ 3`, query at `0`,
`k = 2`: the first sorted neighbour `(0, 0)` is a direct hit and `7` is
returned; the second neighbour `(5, 1)` is ignored. -/
theorem claim_C7_witness :
    List.Sorted distLe (queryNeighbors dAbs 0 [0, 5] 2) ∧
    inverse_distance_weighted_interpolation dAbs 0 [0, 5] [7, 3] 2 =
      Except.ok (if smallThreshold ≤ ([7, 3] : List ℚ).getD 0 0
        then ([7, 3] : List ℚ).getD 0 0 else 0) :=
  claim_C7_shortCircuit dAbs 0 [0, 5] [7, 3] 2 [] [(5, 1)] 0 0
    (by simp) (by norm_num)
    (by
      norm_num [queryNeighbors, kdtreeQuery, neighborPairs, effectiveK,
        List.insertionSort, List.orderedInsert, distLe, dAbs])
    (by intro x hx; exact absurd hx (List.not_mem_nil x))
    (by norm_num [eps])

/-! ### Claim C8: the weighted-average formula, uniform in k -/

/-- Claim C8: when no retrieved neighbour lies within `ε` of the query
point, the candidate result is exactly
`Σ w_i * values[i] / Σ w_i` with `w_i = 1 / d_i` over the `k_eff`
nearest neighbours, and the returned value is that average through the
threshold clamp.  The statement is uniform in `k ≥ 1`: a `k = 1` call
computes the same formula over its one-element neighbour list, with no
separate scalar path. -/
theorem claim_C8_weightedAverage {P : Type} (d : P → P → ℚ) (position : P)
    (nodes : List P) (values : List ℚ) (k : Int)
    (hn : nodes ≠ []) (hk : 1 ≤ k)
    (hfar : ∀ x ∈ queryNeighbors d position nodes k, ¬ x.1 < eps) :
    idwCandidate d position nodes values k =
      Except.ok (sumWeighted values (queryNeighbors d position nodes k) /
        sumWeights (queryNeighbors d position nodes k)) ∧
    inverse_distance_weighted_interpolation d position nodes values k =
      Except.ok (thresholdClamp
        (sumWeighted values (queryNeighbors d position nodes k) /
          sumWeights (queryNeighbors d position nodes k))) := by
  have hne := queryNeighbors_ne_nil d position nodes k hn hk
  have hpos : 0 < sumWeights (queryNeighbors d position nodes k) :=
    sumWeights_pos _ hne hfar
  have hcand : idwCandidateLoop values (queryNeighbors d position nodes k) 0 0 =
      sumWeighted values (queryNeighbors d position nodes k) /
        sumWeights (queryNeighbors d position nodes k) := by
    rw [idwCandidateLoop_weighted values _ hfar 0 0,
      if_neg (by rw [zero_add]; exact ne_of_gt hpos)]
    rw [zero_add, zero_add]
  constructor
  · rw [idwCandidate_ok d position nodes values k hn hk, hcand]
  · rw [idw_ok d position nodes values k hn hk, idwLoop_eq_clamp, hcand]

/-- Witness for claim C8 at `k = 1` (the degenerate single-neighbour
query): one sample `0 ↦ 2`, query at `5`; the weighted average over the
one neighbour is `2`. -/
theorem claim_C8_witness :
    idwCandidate dAbs 5 [0] [2] 1 =
      Except.ok (sumWeighted [2] (queryNeighbors dAbs 5 [0] 1) /
        sumWeights (queryNeighbors dAbs 5 [0] 1)) ∧
    inverse_distance_weighted_interpolation dAbs 5 [0] [2] 1 =
      Except.ok (thresholdClamp
        (sumWeighted [2] (queryNeighbors dAbs 5 [0] 1) /
          sumWeights (queryNeighbors dAbs 5 [0] 1))) :=
  claim_C8_weightedAverage dAbs 5 [0] [2] 1 (by simp) (by norm_num)
    (by
      norm_num [queryNeighbors, kdtreeQuery, neighborPairs, effectiveK,
        List.insertionSort, List.orderedInsert, distLe, eps, dAbs])

/-! ### Claim C9: the denominator is strictly positive -/

/-- Claim C9: with at least one sample and every retrieved distance at
least `ε`, the accumulated denominator `Σ w_i` is strictly positive, so
the `denominator == 0` fallback branch is unreachable and the call
returns the well-defined quotient (through the threshold clamp). -/
theorem claim_C9_denominatorPos {P : Type} (d : P → P → ℚ) (position : P)
    (nodes : List P) (values : List ℚ) (k : Int)
    (hn : nodes ≠ []) (hk : 1 ≤ k)
    (hfar : ∀ x ∈ queryNeighbors d position nodes k, eps ≤ x.1) :
    0 < sumWeights (queryNeighbors d position nodes k) ∧
    inverse_distance_weighted_interpolation d position nodes values k =
      Except.ok (thresholdClamp
        (sumWeighted values (queryNeighbors d position nodes k) /
          sumWeights (queryNeighbors d position nodes k))) := by
  have hfar2 : ∀ x ∈ queryNeighbors d position nodes k, ¬ x.1 < eps :=
    fun x hx => not_lt.mpr (hfar x hx)
  have hne := queryNeighbors_ne_nil d position nodes k hn hk
  have hpos : 0 < sumWeights (queryNeighbors d position nodes k) :=
    sumWeights_pos _ hne hfar2
  refine ⟨hpos, ?_⟩
  have hcand : idwCandidateLoop values (queryNeighbors d position nodes k) 0 0 =
      sumWeighted values (queryNeighbors d position nodes k) /
        sumWeights (queryNeighbors d position nodes k) := by
    rw [idwCandidateLoop_weighted values _ hfar2 0 0,
      if_neg (by rw [zero_add]; exact ne_of_gt hpos)]
    rw [zero_add, zero_add]
  rw [idw_ok d position nodes values k hn hk, idwLoop_eq_clamp, hcand]

/-- Witness for claim C9: two samples `0 ↦ 2`, `10 ↦ 4`, query at `5`,
`k = 2`. -/
theorem claim_C9_witness :
    0 < sumWeights (queryNeighbors dAbs 5 [0, 10] 2) ∧
    inverse_distance_weighted_interpolation dAbs 5 [0, 10] [2, 4] 2 =
      Except.ok (thresholdClamp
        (sumWeighted [2, 4] (queryNeighbors dAbs 5 [0, 10] 2) /
          sumWeights (queryNeighbors dAbs 5 [0, 10] 2))) :=
  claim_C9_denominatorPos dAbs 5 [0, 10] [2, 4] 2 (by simp) (by norm_num)
    (by
      norm_num [queryNeighbors, kdtreeQuery, neighborPairs, effectiveK,
        List.insertionSort, List.orderedInsert, distLe, eps, dAbs,
        show Int.toNat 2 = 2 from rfl])

/-! ### Claim C10: the range of returned values -/

/-- Claim C10: every value an interpolation call returns is non-negative
and lies in `{0} ∪ [0.001, ∞)`: the signed clamp sends every candidate
below `0.001` — negative ones included — to exactly `0`. -/
theorem claim_C10_range {P : Type} (d : P → P → ℚ) (position : P)
    (nodes : List P) (values : List ℚ) (k : Int) (v : ℚ)
    (h : inverse_distance_weighted_interpolation d position nodes values k =
      Except.ok v) :
    0 ≤ v ∧ (v = 0 ∨ smallThreshold ≤ v) := by
  unfold inverse_distance_weighted_interpolation at h
  by_cases h0 : nodes.length = 0
  · simp [h0] at h
  · by_cases h1 : effectiveK nodes k < 1
    · simp [h0, h1] at h
    · rw [if_neg h0, if_neg h1] at h
      have hv := (Except.ok.inj h).symm
      rw [idwLoop_eq_clamp] at hv
      rw [hv]
      unfold thresholdClamp
      split
      · next hthr => exact ⟨le_trans (by norm_num [smallThreshold]) hthr, Or.inr hthr⟩
      · exact ⟨le_refl 0, Or.inl rfl⟩

/-- Witness for claim C10 at the concrete call of the C2 witness input:
the returned value `5` is non-negative and at least `0.001`. -/
theorem claim_C10_witness :
    0 ≤ (5 : ℚ) ∧ ((5 : ℚ) = 0 ∨ smallThreshold ≤ (5 : ℚ)) :=
  claim_C10_range dAbs 1 [0] [5] 1 5 (by
    norm_num [inverse_distance_weighted_interpolation, queryNeighbors, kdtreeQuery,
      neighborPairs, effectiveK, idwLoop, List.insertionSort, List.orderedInsert,
      distLe, eps, smallThreshold, dAbs])

/-! ### Claim C6: permuting the sample sequence -/

theorem neighborPairs_map_dv {P : Type} (d : P → P → ℚ) (q : P) (values : List ℚ) :
    ∀ (ps : List P) (a : Nat) (vs : List ℚ), values.drop a = vs →
      ps.length ≤ vs.length →
      (neighborPairs d q ps a).map (fun x => (x.1, values.getD x.2 0)) =
        (ps.zip vs).map (fun pv => (d q pv.1, pv.2))
  | [], _, _, _, _ => rfl
  | p :: ps, a, [], _, hlen => by simp at hlen
  | p :: ps, a, v :: vs, hdrop, hlen => by
    have hget : values.getD a 0 = v := by
      have h1 : values[a]? = some v := by
        have h2 := List.getElem?_drop values a 0
        rw [Nat.add_zero] at h2
        rw [← h2, hdrop]
        simp
      rw [List.getD_eq_getElem?_getD, h1]
      rfl
    have hdrop' : values.drop (a + 1) = vs := by
      have h3 : values.drop (a + 1) = (values.drop a).drop 1 := by
        rw [List.drop_drop]
      rw [h3, hdrop]
      rfl
    simp only [neighborPairs, List.map_cons, List.zip_cons_cons, hget]
    rw [neighborPairs_map_dv d q values ps (a + 1) vs hdrop' (by simpa using hlen)]

theorem neighborPairs_fst_pairwise {P : Type} (d : P → P → ℚ) (q : P)
    (nodes : List P) (hdist : (nodes.map (d q)).Nodup) :
    (neighborPairs d q nodes 0).Pairwise (fun a b => a.1 ≠ b.1) := by
  have h1 : ((neighborPairs d q nodes 0).map Prod.fst).Pairwise (· ≠ ·) := by
    rw [neighborPairs_map_fst]
    exact hdist
  exact List.pairwise_map.mp h1

theorem sorted_map_dv (values : List ℚ) (L : List (ℚ × Nat))
    (hL : L.Pairwise (fun a b => a.1 ≠ b.1)) :
    (List.insertionSort distLe L).map (fun x => (x.1, values.getD x.2 0)) =
      List.insertionSort pairLe (L.map (fun x => (x.1, values.getD x.2 0))) := by
  apply List.map_insertionSort distLe pairLe
  intro a ha b hb
  by_cases hab : a = b
  · subst hab
    simp [distLe, pairLe]
  · have hsym : Symmetric (fun a b : ℚ × Nat => a.1 ≠ b.1) :=
      fun x y h => Ne.symm h
    have hfst : a.1 ≠ b.1 := hL.forall hsym ha hb hab
    simp [distLe, pairLe, hfst]

/-- The `(distance, value)` content of the sorted neighbour list equals
the sort (by distance) of the sample sequence's `(distance, value)`
pairs, whenever all sample distances to the query point are distinct. -/
theorem sortedNeighbors_map_dv {P : Type} (d : P → P → ℚ) (q : P) (nodes : List P)
    (values : List ℚ) (hvlen : values.length = nodes.length)
    (hdist : (nodes.map (d q)).Nodup) :
    (List.insertionSort distLe (neighborPairs d q nodes 0)).map
        (fun x => (x.1, values.getD x.2 0)) =
      List.insertionSort pairLe
        ((nodes.zip values).map (fun pv => (d q pv.1, pv.2))) := by
  rw [sorted_map_dv values _ (neighborPairs_fst_pairwise d q nodes hdist)]
  congr 1
  exact neighborPairs_map_dv d q values nodes 0 values (List.drop_zero values)
    (le_of_eq hvlen.symm)

/-- Claim C6 fails as stated: two samples at distance `1` on either side
of the query point `0` (a distance tie) with `k = 1`.  In the original
order the index returns sample `0` and the call yields `10`; after
swapping the two id/position/value triples it returns the other sample
and the call yields `20`. -/
theorem claim_C6_counterexample :
    (([(1 : ℚ), -1].zip [(10 : ℚ), 20]).Perm ([(-1 : ℚ), 1].zip [(20 : ℚ), 10])) ∧
    inverse_distance_weighted_interpolation dAbs 0 [1, -1] [10, 20] 1 =
      Except.ok 10 ∧
    inverse_distance_weighted_interpolation dAbs 0 [-1, 1] [20, 10] 1 =
      Except.ok 20 ∧
    (10 : ℚ) ≠ 20 := by
  refine ⟨?_, ?_, ?_, by norm_num⟩
  · simp only [List.zip_cons_cons, List.zip_nil_right]
    exact List.Perm.swap _ _ _
  · norm_num [inverse_distance_weighted_interpolation, queryNeighbors, kdtreeQuery,
      neighborPairs, effectiveK, idwLoop, List.insertionSort, List.orderedInsert,
      distLe, eps, smallThreshold, dAbs]
  · norm_num [inverse_distance_weighted_interpolation, queryNeighbors, kdtreeQuery,
      neighborPairs, effectiveK, idwLoop, List.insertionSort, List.orderedInsert,
      distLe, eps, smallThreshold, dAbs]

/-- Claim C6 (amended): for a fixed query point and `k`, permuting the
input sample sequence (position/value pairs moved together) leaves the
interpolation result unchanged, provided the samples' distances to the
query point are pairwise distinct (with a distance tie the index's
deterministic tie-break makes the result depend on input order, as the
counterexample shows). -/
theorem claim_C6_orderInvariance_amended {P : Type} (d : P → P → ℚ) (q : P)
    (nodes nodes' : List P) (values values' : List ℚ) (k : Int)
    (hvlen : values.length = nodes.length)
    (hvlen' : values'.length = nodes'.length)
    (hperm : (nodes.zip values).Perm (nodes'.zip values'))
    (hdist : (nodes.map (d q)).Nodup) :
    inverse_distance_weighted_interpolation d q nodes values k =
      inverse_distance_weighted_interpolation d q nodes' values' k := by
  have hzlen : (nodes.zip values).length = nodes.length := by
    rw [List.length_zip, hvlen, Nat.min_self]
  have hzlen' : (nodes'.zip values').length = nodes'.length := by
    rw [List.length_zip, hvlen', Nat.min_self]
  have hlen : nodes.length = nodes'.length := by
    rw [← hzlen, ← hzlen']
    exact hperm.length_eq
  by_cases hnil : nodes = []
  · have hnil' : nodes' = [] := by
      rw [hnil] at hlen
      exact (List.length_eq_zero.mp hlen.symm)
    rw [hnil, hnil']
    simp [inverse_distance_weighted_interpolation]
  · have hn' : nodes' ≠ [] := by
      intro hc
      rw [hc] at hlen
      exact hnil (List.length_eq_zero.mp hlen)
    have heff : effectiveK nodes k = effectiveK nodes' k := by
      unfold effectiveK
      rw [hlen]
    have hmapfst : (nodes.zip values).map (fun pv => d q pv.1) = nodes.map (d q) := by
      rw [show (fun pv : P × ℚ => d q pv.1) = (d q) ∘ Prod.fst from rfl,
        ← List.map_map, List.map_fst_zip nodes values (le_of_eq hvlen.symm)]
    have hmapfst' : (nodes'.zip values').map (fun pv => d q pv.1) =
        nodes'.map (d q) := by
      rw [show (fun pv : P × ℚ => d q pv.1) = (d q) ∘ Prod.fst from rfl,
        ← List.map_map, List.map_fst_zip nodes' values' (le_of_eq hvlen'.symm)]
    have hdist' : (nodes'.map (d q)).Nodup := by
      have hpermfst : (nodes.map (d q)).Perm (nodes'.map (d q)) := by
        rw [← hmapfst, ← hmapfst']
        exact hperm.map _
      exact hpermfst.nodup_iff.mp hdist
    have e0 : nodes.length ≠ 0 := fun hc => hnil (List.length_eq_zero.mp hc)
    have e0' : nodes'.length ≠ 0 := fun hc => hn' (List.length_eq_zero.mp hc)
    by_cases h1 : effectiveK nodes k < 1
    · have h1' : effectiveK nodes' k < 1 := heff ▸ h1
      unfold inverse_distance_weighted_interpolation
      rw [if_neg e0, if_neg e0', if_pos h1, if_pos h1']
    · have h1' : ¬ effectiveK nodes' k < 1 := heff ▸ h1
      have hQ : (queryNeighbors d q nodes k).map
            (fun x => (x.1, values.getD x.2 0)) =
          (queryNeighbors d q nodes' k).map
            (fun x => (x.1, values'.getD x.2 0)) := by
        unfold queryNeighbors kdtreeQuery
        rw [List.map_take, List.map_take,
          sortedNeighbors_map_dv d q nodes values hvlen hdist,
          sortedNeighbors_map_dv d q nodes' values' hvlen' hdist', ← heff]
        congr 1
        refine List.eq_of_perm_of_sorted ?_
          (List.sorted_insertionSort pairLe _) (List.sorted_insertionSort pairLe _)
        exact ((List.perm_insertionSort pairLe _).trans (hperm.map _)).trans
          (List.perm_insertionSort pairLe _).symm
      unfold inverse_distance_weighted_interpolation
      rw [if_neg e0, if_neg e0', if_neg h1, if_neg h1']
      rw [idwLoop_eq_loopDV, idwLoop_eq_loopDV, hQ]

/-- Witness for the amended claim C6: three samples at pairwise distinct
distances from the query point `4`, rotated; `k = 2` returns the same
value for both orders. -/
theorem claim_C6_witness :
    inverse_distance_weighted_interpolation dAbs 4 [0, 5, 7] [2, 8, 11] 2 =
      inverse_distance_weighted_interpolation dAbs 4 [5, 7, 0] [8, 11, 2] 2 :=
  claim_C6_orderInvariance_amended dAbs 4 [0, 5, 7] [5, 7, 0] [2, 8, 11] [8, 11, 2] 2
    (by norm_num) (by norm_num)
    (by
      simp only [List.zip_cons_cons, List.zip_nil_right]
      refine List.Perm.trans (List.Perm.swap _ _ _) ?_
      exact List.Perm.cons _ (List.Perm.swap _ _ _))
    (by norm_num [dAbs, List.Nodup])

end IDW
